import Mathlib

/-!
Shallow embedding of the hjkl01/rss front-end RSS reader.

The repository is a React RSS reader.  The logic relevant to the claims lives
in the feed-aggregation code: the `useRSSData` state hook
(`feedsByCategory`, `addFeedsToCategory`, `clearCategoryFeeds`,
`clearAllFeeds`), the fetch normalisation `fetchRSSFeed`, the batched loader
`loadFeedsForCategory`, the grouping `groupedFeeds`, the filter
`filteredFeeds`, the id normalisation in `loadCategoriesAndConfig`, the text
cleaner `utils.stripHtml`, and the UI toggles (`toggleSource`,
`handleRefresh`).

Modelling conventions:
* JS objects used as string-keyed maps with an `|| []` default are modelled as
  total functions `String → List RSSItem`; `{}` is the constantly-`[]` map.
* JS `Set` values are modelled as `Finset String`.
* Timestamps (`pubDate.getTime()`) are integers; `Date` construction and
  `Date.now()` are not modelled (no claim depends on them).
* Heterogeneous JSON responses are modelled by the inductive `Json`;
  `undefined` and `null` are collapsed to `Json.jnull` (both are falsy and
  fail the `typeof x === 'string'` test, which is all the source inspects).
* A thrown-and-caught exception is modelled by `Option.none`.
-/

namespace RSSReader

/-- Category record generated from the feed configuration
(`src/types/rss.ts`, `RSSCategory`). -/
structure RSSCategory where
  id : String
  name : String
  color : String
  count : Nat
deriving DecidableEq

/-- Feed item record (`src/types/rss.ts`, `RSSItem`).  `pubDate` is an integer
timestamp (the code only ever compares `pubDate.getTime()` values). -/
structure RSSItem where
  id : String
  title : String
  description : String
  link : String
  pubDate : Int
  category : RSSCategory
  source : String
  author : String
  feedName : String
deriving DecidableEq

/-- Feed configuration entry (`src/types/rss.ts`, `RSSFeedConfig`). -/
structure RSSFeedConfig where
  name : String
  url : String
  category : String
  description : String
deriving DecidableEq

/-- The dedup loop of `addFeedsToCategory`: walk `allFeeds`, keep a feed only
when its `link` is not yet in `linkSet` (the `seen` argument), recording it
otherwise.  First occurrence of each link wins. -/
def dedupGo : List RSSItem → List String → List RSSItem
  | [], _ => []
  | f :: rest, seen =>
    if f.link ∈ seen then dedupGo rest seen
    else f :: dedupGo rest (f.link :: seen)

/-- `addFeedsToCategory`'s per-category body: `allFeeds = [...current, ...new]`
deduplicated by `link` with a fresh empty `linkSet`. -/
def dedupByLink (feeds : List RSSItem) : List RSSItem := dedupGo feeds []

/-- The `feedsByCategory` state object: category id to cached item list, with
the `prev[categoryId] || []` default built in. -/
abbrev FeedsByCategory : Type := String → List RSSItem

/-- The initial `useState({})` value of `feedsByCategory`. -/
def emptyFeeds : FeedsByCategory := fun _ => []

/-- `addFeedsToCategory(categoryId, newFeeds)`: concatenate the cached feeds of
the category with the new batch, dedup by link, store under the category key;
every other key is untouched. -/
def addFeedsToCategory (s : FeedsByCategory) (categoryId : String)
    (newFeeds : List RSSItem) : FeedsByCategory :=
  fun k => if k = categoryId then dedupByLink (s categoryId ++ newFeeds) else s k

/-- `clearCategoryFeeds(categoryId)`: `{ ...prev, [categoryId]: [] }`. -/
def clearCategoryFeeds (s : FeedsByCategory) (categoryId : String) :
    FeedsByCategory :=
  fun k => if k = categoryId then [] else s k

/-- `clearAllFeeds()`: `setFeedsByCategory({})`. -/
def clearAllFeeds (_s : FeedsByCategory) : FeedsByCategory := fun _ => []

/-- The dedup invariant of claim C1: under every category key the stored links
are pairwise distinct. -/
def DedupInv (s : FeedsByCategory) : Prop :=
  ∀ c, ((s c).map RSSItem.link).Nodup

/-- One step of the `groupedFeeds` reduce on the object `acc`:
`if (!acc[feed.feedName]) acc[feed.feedName] = []; acc[feed.feedName].push(feed)`.
The object is an insertion-ordered association list with unique keys: push onto
the entry of the key when present, otherwise create the bucket at the end. -/
def insertFeed : List (String × List RSSItem) → RSSItem →
    List (String × List RSSItem)
  | [], feed => [(feed.feedName, [feed])]
  | p :: rest, feed =>
    if p.1 == feed.feedName then (p.1, p.2 ++ [feed]) :: rest
    else p :: insertFeed rest feed

/-- `groupedFeeds`: `feeds.reduce((acc, feed) => { ... }, {})`, the object
modelled as an insertion-ordered association list. -/
def groupedFeeds (feeds : List RSSItem) : List (String × List RSSItem) :=
  feeds.foldl insertFeed []

/-- Reading `groups[k]` with an `|| []` default. -/
def lookupGroup (groups : List (String × List RSSItem)) (k : String) :
    List RSSItem :=
  ((groups.find? (fun p => p.1 == k)).map Prod.snd).getD []

/-- All items of all groups, in group order. -/
def joinGroups (groups : List (String × List RSSItem)) : List RSSItem :=
  (groups.map Prod.snd).flatten

/-- `filteredFeeds` of the single-list variant:
`selectedCategory ? feeds.filter(f => f.category.id === selectedCategory) : feeds`.
JS truthiness: both `null` and the empty string select the `: feeds` branch. -/
def filteredFeeds (feeds : List RSSItem) (selectedCategory : Option String) :
    List RSSItem :=
  match selectedCategory with
  | some c => if c = "" then feeds
              else feeds.filter (fun feed => feed.category.id == c)
  | none => feeds

/-- `toggleSource(sourceName)`: copy the expanded set, delete the name if
present, insert it otherwise. -/
def toggleSource (expandedSources : Finset String) (sourceName : String) :
    Finset String :=
  if sourceName ∈ expandedSources then expandedSources.erase sourceName
  else insert sourceName expandedSources

/-- The whitespace test of the regexes `/\s+/g` and of `trim` (the common
whitespace characters; the exact character class does not matter to any
claim). -/
def isJsWs (c : Char) : Bool :=
  c = ' ' || c = '\t' || c = '\n' || c = '\r'

/-- `replace(/\s+/g, '-')`: every maximal whitespace run becomes one '-'.
`prevWs` records whether the previous character was whitespace, so a run
emits its dash only at its first character. -/
def squashWs (prevWs : Bool) : List Char → List Char
  | [] => []
  | c :: rest =>
    if isJsWs c then
      if prevWs then squashWs true rest else '-' :: squashWs true rest
    else c :: squashWs false rest

/-- `toLowerCase()`, applied character by character. -/
def toLowerStr (s : String) : String := String.mk (s.data.map Char.toLower)

/-- Category id generation of `loadCategoriesAndConfig`:
`category.toLowerCase().replace(/\s+/g, '-')`. -/
def normalizeCategoryId (s : String) : String :=
  String.mk (squashWs false (toLowerStr s).data)

/-- One step of the `categoryMap` construction: record a feed config's raw
category name unless it is already present (`if (!categoryMap.has(...))`). -/
def addCategoryName (acc : List String) (fc : RSSFeedConfig) : List String :=
  if fc.category ∈ acc then acc else acc ++ [fc.category]

/-- The raw category names in the order the `categoryMap` picks them up:
first occurrence of each distinct `feedConfig.category`. -/
def categoryNames (feeds : List RSSFeedConfig) : List String :=
  feeds.foldl addCategoryName []

/-- `CONFIG.BATCH_SIZE`. -/
def BATCH_SIZE : Nat := 3

/-- `CONFIG.BATCH_DELAY` (milliseconds). -/
def BATCH_DELAY : Nat := 100

/-- Observable scheduling events of the batched loader: dispatching one batch
of feed configs, or sleeping between batches. -/
inductive LoadEvent where
  | batch (configs : List RSSFeedConfig)
  | delay (ms : Nat)
deriving DecidableEq

/-- The batching loop of `loadFeedsForCategory`:
`for (let i = 0; i < feedConfigs.length; i += BATCH_SIZE)` dispatches
`feedConfigs.slice(i, i + BATCH_SIZE)` and sleeps `BATCH_DELAY` whenever
`i + BATCH_SIZE < feedConfigs.length`. -/
def loadLoop (feedConfigs : List RSSFeedConfig) (i : Nat) : List LoadEvent :=
  if _h : i < feedConfigs.length then
    let batch := (feedConfigs.drop i).take BATCH_SIZE
    let rest := loadLoop feedConfigs (i + BATCH_SIZE)
    if i + BATCH_SIZE < feedConfigs.length then
      LoadEvent.batch batch :: LoadEvent.delay BATCH_DELAY :: rest
    else
      LoadEvent.batch batch :: rest
  else []
termination_by feedConfigs.length - i
decreasing_by simp_wf; simp only [BATCH_SIZE]; omega

/-- Modelled from the spec side of claim C5: consecutive chunks of
`BATCH_SIZE`.  The fuel argument only bounds the recursion (the list shrinks
by `BATCH_SIZE` each step); `specChunks` supplies enough fuel. -/
def chunksOfBatchFuel : Nat → List RSSFeedConfig → List (List RSSFeedConfig)
  | 0, _ => []
  | _ + 1, [] => []
  | fuel + 1, c :: rest =>
    (c :: rest).take BATCH_SIZE :: chunksOfBatchFuel fuel ((c :: rest).drop BATCH_SIZE)

/-- Modelled from the spec side of claim C5: the list split into consecutive
chunks of size `BATCH_SIZE`, only the final chunk possibly smaller. -/
def specChunks (l : List RSSFeedConfig) : List (List RSSFeedConfig) :=
  chunksOfBatchFuel l.length l

/-- Modelled from the spec side of claim C5: dispatch the chunks in order with
a `BATCH_DELAY` pause between consecutive chunks and none after the last. -/
def withDelays : List (List RSSFeedConfig) → List LoadEvent
  | [] => []
  | [b] => [LoadEvent.batch b]
  | b :: rest => LoadEvent.batch b :: LoadEvent.delay BATCH_DELAY :: withDelays rest

/-- Characters strictly after the first '>' of the list, or `none` when no '>'
occurs.  This is where scanning resumes after the regex `<[^>]*>` matches:
from a '<', the greedy `[^>]*` stops exactly at the first '>' ahead. -/
def afterGt (l : List Char) : Option (List Char) :=
  match l.dropWhile (fun c => c != '>') with
  | [] => none
  | _ :: t => some t

/-- Left-to-right scan of `String.replace(/<[^>]*>/g, '')`: at a '<' with some
'>' ahead the whole span through that '>' is deleted; at a '<' with no '>'
ahead the regex cannot match there and the character is copied; any other
character is copied.  The fuel only bounds the recursion (each step consumes
at least one input character); `stripTags` supplies enough fuel. -/
def stripTagsFuel : Nat → List Char → List Char
  | 0, l => l
  | _ + 1, [] => []
  | fuel + 1, c :: rest =>
    if c = '<' then
      match afterGt rest with
      | some after => stripTagsFuel fuel after
      | none => c :: stripTagsFuel fuel rest
    else c :: stripTagsFuel fuel rest

/-- `html.replace(/<[^>]*>/g, '')` on the character list of the string. -/
def stripTags (l : List Char) : List Char := stripTagsFuel l.length l

/-- `trim()`: drop whitespace from the front, then from the back. -/
def trimChars (l : List Char) : List Char :=
  ((l.dropWhile isJsWs).reverse.dropWhile isJsWs).reverse

/-- `utils.stripHtml` on a string argument: the empty string is falsy and
returns '' at the `if (!html)` guard, otherwise tags are replaced and the
result trimmed. -/
def stripHtmlStr (html : String) : String :=
  if html = "" then "" else String.mk (trimChars (stripTags html.data))

/-- JSON-like values of a proxy response.  `jnull` stands for both `null` and
`undefined` (the code only ever applies truthiness and
`typeof x === 'string'` to them, which agree on the two). -/
inductive Json where
  | jnull
  | jstr (s : String)
  | jnum (n : Int)
  | jbool (b : Bool)
  | jarr (elems : List Json)
  | jobj (fields : List (String × Json))

/-- JS truthiness ('' , 0, null/undefined and false are falsy; every array and
object is truthy). -/
def truthy : Json → Bool
  | .jnull => false
  | .jstr s => s != ""
  | .jnum n => n != 0
  | .jbool b => b
  | .jarr _ => true
  | .jobj _ => true

/-- `typeof x === 'string'`. -/
def isStrJ : Json → Bool
  | .jstr _ => true
  | _ => false

/-- Whether the value is `null`/`undefined` (property access on it throws). -/
def isNullJ : Json → Bool
  | .jnull => true
  | _ => false

/-- `Array.isArray`. -/
def isArrJ : Json → Bool
  | .jarr _ => true
  | _ => false

/-- `x === 'ok'`. -/
def isOkJ : Json → Bool
  | .jstr s => s == "ok"
  | _ => false

/-- Property access `x.f` (and `x?.f`): a missing property, or access on a
non-object, yields `undefined`, collapsed to `jnull`. -/
def getF : Json → String → Json
  | .jobj fields, k => ((fields.find? (fun p => p.1 == k)).map Prod.snd).getD .jnull
  | _, _ => .jnull

/-- JS `a || b`. -/
def jsOr (a b : Json) : Json := if truthy a then a else b

/-- `Array.isArray(x) ? x : [x]`. -/
def toArrJ (j : Json) : Json := if isArrJ j then j else .jarr [j]

/-- `utils.stripHtml` on an arbitrary value: a falsy argument returns '' at the
`if (!html)` guard, a string is stripped and trimmed, and a truthy non-string
has no `.replace` method, so the call throws (`none`). -/
def stripHtmlJ : Json → Option String
  | .jstr s => some (stripHtmlStr s)
  | j => if truthy j then none else some ""

/-- The `feedConfig` argument of `fetchRSSFeed`; only `title` and `name` are
read when building items (`url` only feeds the proxy URL). -/
structure FetchFeedConfig where
  title : Json
  name : Json

/-- The common item shape produced by `fetchRSSFeed`.  The `id` field
(`utils.generateId`, which embeds `Date.now()`) is not modelled; no claim
mentions it.  `description` is the result of `utils.stripHtml`, hence a
string; the other payload fields keep whatever value the fallback chains
produce. -/
structure NormItem where
  title : Json
  description : String
  link : Json
  pubDate : Json
  category : RSSCategory
  source : Json
  author : Json
  feedName : Json

/-- The repeated pattern
`typeof v === 'string' ? v : (v?._text || v?._cdata || dflt)`. -/
def strFallback (j : Json) (dflt : String) : Json :=
  if isStrJ j then j
  else jsOr (getF j "_text") (jsOr (getF j "_cdata") (.jstr dflt))

/-- The condition under which the `_text`/`_cdata` fallback chain yields a
string: the value is itself a string; or its `_text`, when truthy, is a
string; or `_text` is falsy and `_cdata`, when truthy, is a string (when both
are falsy the chain ends in the string default). -/
def strFallbackOk (j : Json) : Bool :=
  isStrJ j ||
    (if truthy (getF j "_text") then isStrJ (getF j "_text")
     else if truthy (getF j "_cdata") then isStrJ (getF j "_cdata") else true)

/-- `item.title || item.name || '无标题'`. -/
def rawTitle (item : Json) : Json :=
  jsOr (getF item "title") (jsOr (getF item "name") (.jstr "无标题"))

/-- `item.description || item.content || item.summary || '无描述'`. -/
def rawDesc (item : Json) : Json :=
  jsOr (getF item "description")
    (jsOr (getF item "content") (jsOr (getF item "summary") (.jstr "无描述")))

/-- `item.link || item.url || '#'`. -/
def rawLink (item : Json) : Json :=
  jsOr (getF item "link") (jsOr (getF item "url") (.jstr "#"))

/-- `item.pubDate || item.published || item.updated || item.date || Date.now()`;
`now` is the ambient `Date.now()` value. -/
def rawPub (now : Int) (item : Json) : Json :=
  jsOr (getF item "pubDate")
    (jsOr (getF item "published")
      (jsOr (getF item "updated") (jsOr (getF item "date") (.jnum now))))

/-- `item.author || item.creator || feedTitle || feedConfig.title || feedConfig.name`. -/
def rawAuthor (feedTitle : Json) (fc : FetchFeedConfig) (item : Json) : Json :=
  jsOr (getF item "author")
    (jsOr (getF item "creator") (jsOr feedTitle (jsOr fc.title fc.name)))

/-- The body of the `items.map` callback of `fetchRSSFeed`.  A `null` array
element throws on its first property access (caught upstream, `none`), and a
truthy non-string description fallback makes `stripHtml` throw (`none`). -/
def normalizeItem (feedTitle : Json) (fc : FetchFeedConfig)
    (category : RSSCategory) (now : Int) (item : Json) : Option NormItem :=
  if isNullJ item then none
  else
    match stripHtmlJ (strFallback (rawDesc item) "无描述") with
    | none => none
    | some d =>
      some { title := strFallback (rawTitle item) "无标题"
             description := d
             link := strFallback (rawLink item) "#"
             pubDate := rawPub now item
             category := category
             source := jsOr feedTitle (jsOr fc.title fc.name)
             author :=
               if isStrJ (rawAuthor feedTitle fc item) then
                 rawAuthor feedTitle fc item
               else
                 jsOr (getF (rawAuthor feedTitle fc item) "_text")
                   (jsOr (getF (rawAuthor feedTitle fc item) "_cdata")
                     (jsOr fc.title fc.name))
             feedName := jsOr fc.title fc.name }

/-- The shape dispatch of `fetchRSSFeed`: the five recognised response shapes,
in source order, producing the raw `items` value and the `feedTitle`; when no
branch matches, `items` keeps its initial `[]` and `feedTitle` its ''. -/
def extractItems (data : Json) : Json × Json :=
  if isOkJ (getF data "status") && truthy (getF data "items") then
    (getF data "items",
     jsOr (getF (getF data "feed") "title")
       (jsOr (getF (getF data "feed") "name") (.jstr "")))
  else if isArrJ data then
    (data, .jstr "")
  else if truthy (getF (getF (getF data "rss") "channel") "item") then
    (toArrJ (getF (getF (getF data "rss") "channel") "item"),
     jsOr (getF (getF (getF data "rss") "channel") "title")
       (jsOr (getF (getF (getF data "rss") "channel") "name") (.jstr "")))
  else if truthy (getF (getF data "feed") "entry") then
    (toArrJ (getF (getF data "feed") "entry"),
     jsOr (getF (getF data "feed") "title")
       (jsOr (getF (getF data "feed") "name") (.jstr "")))
  else if truthy (getF data "items") && isArrJ (getF data "items") then
    (getF data "items",
     jsOr (getF data "title") (jsOr (getF data "name") (.jstr "")))
  else (.jarr [], .jstr "")

/-- `items.length > 0` on a raw value: arrays and strings have a numeric
`length`; on a plain object a numeric `length` property is compared (numeric
coercion of other `length` values is not modelled); everything else gives
`undefined > 0`, which is false. -/
def jsLenPos (j : Json) : Bool :=
  match j with
  | .jarr xs => xs.length != 0
  | .jstr s => s.length != 0
  | .jobj _ =>
    match getF j "length" with
    | .jnum n => 0 < n
    | _ => false
  | _ => false

/-- `items.map(cb)`: maps over an array; on any non-array (a string passes the
length test too) `.map` is not a function and the call throws (`none`);
a failing callback propagates the failure. -/
def mapItems (f : Json → Option NormItem) : Json → Option (List NormItem)
  | .jarr xs => xs.mapM f
  | _ => none

/-- The pure part of `fetchRSSFeed` after `response.json()` succeeded: shape
dispatch, `items && items.length > 0` guard, and the item mapping.  A `null`
body throws at `data.status` (caught, `null`). -/
def normalizeResponse (data : Json) (fc : FetchFeedConfig)
    (category : RSSCategory) (now : Int) : Option (List NormItem) :=
  if isNullJ data then none
  else
    let p := extractItems data
    if truthy p.1 && jsLenPos p.1 then
      mapItems (normalizeItem p.2 fc category now) p.1
    else none

/-- `fetchRSSFeed feedConfig category`: a failed fetch / non-ok HTTP status /
JSON parse failure (`response = none`) lands in the catch and returns `null`;
otherwise the body is normalised. -/
def fetchRSSFeed (response : Option Json) (fc : FetchFeedConfig)
    (category : RSSCategory) (now : Int) : Option (List NormItem) :=
  match response with
  | none => none
  | some data => normalizeResponse data fc category now

/-- The component state touched by `handleRefresh` /
`loadFeedsForCategory` (part_000 variant). -/
structure AppState where
  feedsByCategory : FeedsByCategory
  loadingFeeds : Finset String
  failedFeeds : List String
  loadedFeedsCount : Nat
  errorMsg : Option String
  isSorted : Bool
  expandedSources : Finset String
  selectedCategory : Option String
  categories : List RSSCategory
  hasRssConfig : Bool

/-- `resetLoadingState()`. -/
def resetLoadingState (s : AppState) : AppState :=
  { s with loadingFeeds := {}, failedFeeds := [], loadedFeedsCount := 0 }

/-- The settled outcome of one feed config inside a batch: the feed title and
the `fetchRSSFeed` result (`none` for a rejection). -/
structure FetchOutcome where
  title : String
  result : Option (List RSSItem)

/-- The per-feed callback of `loadFeedsForCategory` at its settled point:
a non-empty result is merged into the category and the source expanded, an
empty or null result records a failure.  The transient
`addLoadingFeed`/`removeLoadingFeed` pair nets to no change on the settled
state and is not recorded. -/
def applyFetchOutcome (categoryId : String) (s : AppState) (o : FetchOutcome) :
    AppState :=
  match o.result with
  | some items =>
    if items.isEmpty then { s with failedFeeds := s.failedFeeds ++ [o.title] }
    else
      { s with
        feedsByCategory := addFeedsToCategory s.feedsByCategory categoryId items
        expandedSources := insert o.title s.expandedSources
        loadedFeedsCount := s.loadedFeedsCount + 1 }
  | none => { s with failedFeeds := s.failedFeeds ++ [o.title] }

/-- The synchronous head of `loadFeedsForCategory`:
`setError(null); clearCategoryFeeds(categoryId); resetLoadingState();`. -/
def loadReset (categoryId : String) (s : AppState) : AppState :=
  resetLoadingState
    { s with errorMsg := none
             feedsByCategory := clearCategoryFeeds s.feedsByCategory categoryId }

/-- `loadFeedsForCategory(categoryId)` viewed at the point where every fetch of
the run has settled, the per-feed completions arriving in the order given by
`outcomes`.  The 'custom' category and a missing config return early; a
missing category sets the error; otherwise the category is cleared and the
outcomes are folded in. -/
def loadFeedsForCategory (categoryId : String) (outcomes : List FetchOutcome)
    (s : AppState) : AppState :=
  if categoryId = "custom" then s
  else if !s.hasRssConfig then s
  else
    let s1 := loadReset categoryId s
    if s1.categories.any (fun c => c.id == categoryId) then
      outcomes.foldl (applyFetchOutcome categoryId) s1
    else { s1 with errorMsg := some "分类不存在" }

/-- The synchronous head of `handleRefresh`:
`clearAllFeeds(); resetLoadingState(); setIsSorted(false);`. -/
def refreshReset (s : AppState) : AppState :=
  { resetLoadingState { s with feedsByCategory := clearAllFeeds s.feedsByCategory }
    with isSorted := false }

/-- `handleRefresh()`: clear everything, then, when a category is selected (JS
truthiness: '' counts as unselected), reload it. -/
def handleRefresh (outcomes : List FetchOutcome) (s : AppState) : AppState :=
  let s1 := refreshReset s
  match s1.selectedCategory with
  | some categoryId =>
    if categoryId = "" then s1 else loadFeedsForCategory categoryId outcomes s1
  | none => s1

/-! Concrete instances used by witnesses and counterexamples. -/

/-- A sample category. -/
def catTech : RSSCategory := { id := "tech", name := "Tech", color := "#3B82F6", count := 0 }

/-- A cached item with link `https://e.x/a`. -/
def sampleItemA : RSSItem :=
  { id := "a", title := "old", description := "d", link := "https://e.x/a",
    pubDate := 1, category := catTech, source := "A", author := "A", feedName := "A" }

/-- A freshly fetched item with the same link as `sampleItemA` but different
payload. -/
def sampleItemB : RSSItem :=
  { id := "b", title := "new", description := "d2", link := "https://e.x/a",
    pubDate := 2, category := catTech, source := "A", author := "A", feedName := "A" }

/-- A cache that stores `sampleItemA` under "tech". -/
def feedsStateA : FeedsByCategory :=
  fun k => if k = "tech" then [sampleItemA] else []

/-- A sample fetch config (only `name` present, as for config-file entries). -/
def fcW : FetchFeedConfig := { title := .jnull, name := .jstr "feedA" }

/-- A rss2json-shaped response whose single item carries a numeric `_text`
under `title`. -/
def dataCx : Json :=
  .jobj [("status", .jstr "ok"),
         ("items", .jarr [.jobj [("title", .jobj [("_text", .jnum 42)])]])]

/-- A well-shaped raw item. -/
def itemW : Json := .jobj [("title", .jstr "Hi")]

/-- The normalised form of `itemW`. -/
def niW : NormItem :=
  { title := .jstr "Hi", description := "无描述", link := .jstr "#", pubDate := .jnum 0,
    category := catTech, source := .jstr "feedA", author := .jstr "feedA",
    feedName := .jstr "feedA" }

/-- Two feed configs whose raw category names differ only in letter case. -/
def feedsCaseClash : List RSSFeedConfig :=
  [{ name := "a", url := "u1", category := "Tech", description := "d" },
   { name := "b", url := "u2", category := "tech", description := "d" }]

/-- Four feed configs in one category (so batching yields chunks 3 + 1). -/
def feedsFour : List RSSFeedConfig :=
  [{ name := "a", url := "u1", category := "Tech", description := "" },
   { name := "b", url := "u2", category := "Tech", description := "" },
   { name := "c", url := "u3", category := "Tech", description := "" },
   { name := "d", url := "u4", category := "Tech", description := "" }]

/-- Two feed configs with distinct raw category names that stay distinct
after id normalisation. -/
def feedsTwoCats : List RSSFeedConfig :=
  [{ name := "a", url := "u1", category := "Tech", description := "d" },
   { name := "b", url := "u2", category := "World News", description := "d" }]

/-- An app state with the sort flag on and nothing selected. -/
def sortedState : AppState :=
  { feedsByCategory := feedsStateA, loadingFeeds := {}, failedFeeds := [],
    loadedFeedsCount := 0, errorMsg := none, isSorted := true,
    expandedSources := {}, selectedCategory := none, categories := [catTech],
    hasRssConfig := true }

/-! Lemmas about the dedup loop. -/

/-- Every item kept by the dedup loop comes from the input and its link was
not previously seen. -/
theorem dedupGo_mem (l : List RSSItem) :
    ∀ (seen : List String) (x : RSSItem),
      x ∈ dedupGo l seen → x ∈ l ∧ x.link ∉ seen := by
  induction l with
  | nil => intro seen x hx; simp [dedupGo] at hx
  | cons f rest ih =>
    intro seen x hx
    by_cases hf : f.link ∈ seen
    · rw [dedupGo, if_pos hf] at hx
      obtain ⟨h1, h2⟩ := ih seen x hx
      exact ⟨List.mem_cons_of_mem _ h1, h2⟩
    · rw [dedupGo, if_neg hf, List.mem_cons] at hx
      rcases hx with hx | hx
      · subst hx; exact ⟨List.mem_cons_self _ _, hf⟩
      · obtain ⟨h1, h2⟩ := ih _ x hx
        exact ⟨List.mem_cons_of_mem _ h1,
          fun hs => h2 (List.mem_cons_of_mem _ hs)⟩

/-- The dedup loop produces pairwise-distinct links. -/
theorem dedupGo_nodup (l : List RSSItem) :
    ∀ seen : List String, ((dedupGo l seen).map RSSItem.link).Nodup := by
  induction l with
  | nil => intro seen; simp [dedupGo]
  | cons f rest ih =>
    intro seen
    by_cases hf : f.link ∈ seen
    · rw [dedupGo, if_pos hf]; exact ih seen
    · rw [dedupGo, if_neg hf]
      simp only [List.map_cons, List.nodup_cons]
      refine ⟨fun hmem => ?_, ih _⟩
      obtain ⟨y, hy, hlink⟩ := List.mem_map.mp hmem
      exact (dedupGo_mem rest _ _ hy).2 (hlink ▸ List.mem_cons_self _ _)

/-- An item of the left part whose links are distinct and unseen survives the
dedup loop. -/
theorem dedupGo_keeps (rest : List RSSItem) : ∀ (pre : List RSSItem)
    (seen : List String), (pre.map RSSItem.link).Nodup →
    (∀ x ∈ pre, x.link ∉ seen) → ∀ f ∈ pre, f ∈ dedupGo (pre ++ rest) seen := by
  intro pre
  induction pre with
  | nil => intro seen _ _ f hf; simp at hf
  | cons a t ih =>
    intro seen hnd hseen f hf
    have ha : a.link ∉ seen := hseen a (List.mem_cons_self _ _)
    rw [List.cons_append, dedupGo, if_neg ha]
    rw [List.mem_cons] at hf
    rcases hf with hf | hf
    · subst hf; exact List.mem_cons_self _ _
    · simp only [List.map_cons, List.nodup_cons] at hnd
      refine List.mem_cons_of_mem _ (ih _ hnd.2 ?_ f hf)
      intro x hx hmem
      rw [List.mem_cons] at hmem
      rcases hmem with hmem | hmem
      · exact hnd.1 (hmem ▸ List.mem_map_of_mem RSSItem.link hx)
      · exact hseen x (List.mem_cons_of_mem _ hx) hmem

/-- An item the dedup loop keeps whose link already occurs in the left part is
itself from the left part (first occurrence wins). -/
theorem dedupGo_first_wins (rest : List RSSItem) : ∀ (pre : List RSSItem)
    (seen : List String) (x : RSSItem), x ∈ dedupGo (pre ++ rest) seen →
    x.link ∈ pre.map RSSItem.link → x ∈ pre := by
  intro pre
  induction pre with
  | nil => intro seen x _ hlink; simp at hlink
  | cons a t ih =>
    intro seen x hx hlink
    by_cases ha : a.link ∈ seen
    · rw [List.cons_append, dedupGo, if_pos ha] at hx
      rcases List.mem_map.mp hlink with ⟨y, hy, hylink⟩
      rw [List.mem_cons] at hy
      rcases hy with hy | hy
      · exfalso
        exact (dedupGo_mem _ _ _ hx).2 (((hy ▸ hylink).symm : x.link = a.link) ▸ ha)
      · exact List.mem_cons_of_mem _
          (ih _ _ hx (hylink ▸ List.mem_map_of_mem RSSItem.link hy))
    · rw [List.cons_append, dedupGo, if_neg ha, List.mem_cons] at hx
      rcases hx with hx | hx
      · subst hx; exact List.mem_cons_self _ _
      · rcases List.mem_map.mp hlink with ⟨y, hy, hylink⟩
        rw [List.mem_cons] at hy
        rcases hy with hy | hy
        · exfalso
          exact (dedupGo_mem _ _ _ hx).2
            (((hy ▸ hylink).symm : x.link = a.link) ▸ List.mem_cons_self _ _)
        · exact List.mem_cons_of_mem _
            (ih _ _ hx (hylink ▸ List.mem_map_of_mem RSSItem.link hy))

/-- C1: the aggregation state deduplicates results: every category key of
`feedsByCategory` holds pairwise-distinct link values, the empty state
satisfies this, and `addFeedsToCategory`, `clearCategoryFeeds` and
`clearAllFeeds` all preserve it. -/
theorem claim_C1_dedup_invariant :
    DedupInv emptyFeeds ∧
    (∀ s c new, DedupInv s → DedupInv (addFeedsToCategory s c new)) ∧
    (∀ s c, DedupInv s → DedupInv (clearCategoryFeeds s c)) ∧
    (∀ s, DedupInv (clearAllFeeds s)) := by
  refine ⟨fun c => by simp [emptyFeeds], ?_, ?_, fun s c => by simp [clearAllFeeds]⟩
  · intro s c new hs k
    by_cases hk : k = c
    · simp only [addFeedsToCategory, if_pos hk, dedupByLink]
      exact dedupGo_nodup _ _
    · simpa only [addFeedsToCategory, if_neg hk] using hs k
  · intro s c hs k
    by_cases hk : k = c
    · simp [clearCategoryFeeds, if_pos hk]
    · simpa only [clearCategoryFeeds, if_neg hk] using hs k

/-- Witness for C1: the invariant holds after adding a batch to the empty
state. -/
theorem claim_C1_witness :
    DedupInv (addFeedsToCategory emptyFeeds "tech" [sampleItemA, sampleItemB]) :=
  claim_C1_dedup_invariant.2.1 emptyFeeds "tech" [sampleItemA, sampleItemB]
    (fun _ => List.nodup_nil)

/-- C2 as stated is false: on a link collision `addFeedsToCategory` keeps the
EARLIER stored item and drops the later one.  Here the category "tech" already
stores `sampleItemA`; merging `sampleItemB` (same link, different payload)
leaves `sampleItemA` stored and discards `sampleItemB`. -/
theorem claim_C2_counterexample :
    sampleItemB ∉ addFeedsToCategory feedsStateA "tech" [sampleItemB] "tech" ∧
    sampleItemA ∈ addFeedsToCategory feedsStateA "tech" [sampleItemB] "tech" := by
  decide

/-- C2 amended: merging is first-wins, not later-overwrites.  If the stored
list of the category has pairwise-distinct links (the C1 invariant), then
after `addFeedsToCategory` every previously stored item is still stored, and
any stored item whose link already occurred in the old list is an old item —
a later item with a colliding link is dropped, never substituted. -/
theorem claim_C2_amended (s : FeedsByCategory) (c : String) (new : List RSSItem)
    (hnd : ((s c).map RSSItem.link).Nodup) :
    (∀ f ∈ s c, f ∈ addFeedsToCategory s c new c) ∧
    (∀ g ∈ addFeedsToCategory s c new c,
      g.link ∈ (s c).map RSSItem.link → g ∈ s c) := by
  constructor
  · intro f hf
    simp only [addFeedsToCategory, if_pos rfl, dedupByLink]
    exact dedupGo_keeps new (s c) [] hnd (by simp) f hf
  · intro g hg hlink
    simp only [addFeedsToCategory, if_pos rfl, dedupByLink] at hg
    exact dedupGo_first_wins new (s c) [] g hg hlink

/-- Witness for the amended C2 at a concrete state. -/
theorem claim_C2_witness :
    sampleItemA ∈ addFeedsToCategory feedsStateA "tech" [sampleItemB] "tech" :=
  (claim_C2_amended feedsStateA "tech" [sampleItemB] (by decide)).1
    sampleItemA (by decide)

/-- C6 as stated is false because of JS truthiness: the empty string is a
legal generated category id (raw name ""), but `selectedCategory ? ... : ...`
treats it as "nothing selected" and displays every cached item.  Here an item
of category id "tech" is displayed although "" is selected. -/
theorem claim_C6_counterexample :
    sampleItemA ∈ filteredFeeds [sampleItemA] (some "") ∧
    sampleItemA.category.id ≠ "" := by
  decide

/-- C6 amended: for a non-empty selected id the displayed list is sound and
complete for that category, and with no selection every cached item is
displayed. -/
theorem claim_C6_amended (feeds : List RSSItem) (c : String) (hc : c ≠ "") :
    (∀ f, f ∈ filteredFeeds feeds (some c) ↔ f ∈ feeds ∧ f.category.id = c) ∧
    filteredFeeds feeds none = feeds := by
  refine ⟨fun f => ?_, rfl⟩
  simp [filteredFeeds, if_neg hc, List.mem_filter]

/-- Witness for the amended C6 at a concrete cache and id. -/
theorem claim_C6_witness :
    sampleItemA ∈ filteredFeeds [sampleItemA] (some "tech") ↔
      sampleItemA ∈ [sampleItemA] ∧ sampleItemA.category.id = "tech" :=
  (claim_C6_amended [sampleItemA] "tech" (by decide)).1 sampleItemA

/-- C10: toggling a source is an involution, flips exactly the toggled name's
membership, and leaves every other name's membership unchanged. -/
theorem claim_C10_toggle (s : Finset String) (n : String) :
    toggleSource (toggleSource s n) n = s ∧
    (n ∈ toggleSource s n ↔ n ∉ s) ∧
    (∀ m, m ≠ n → (m ∈ toggleSource s n ↔ m ∈ s)) := by
  by_cases hn : n ∈ s
  · refine ⟨?_, ?_, ?_⟩
    · simp only [toggleSource, if_pos hn, Finset.mem_erase, ne_eq,
        not_true_eq_false, false_and, if_false]
      exact Finset.insert_erase hn
    · simp [toggleSource, if_pos hn, hn]
    · intro m hm
      simp [toggleSource, if_pos hn, Finset.mem_erase, hm]
  · refine ⟨?_, ?_, ?_⟩
    · simp only [toggleSource, if_neg hn, Finset.mem_insert, true_or, if_true]
      exact Finset.erase_insert hn
    · simp [toggleSource, if_neg hn, hn]
    · intro m hm
      simp [toggleSource, if_neg hn, Finset.mem_insert, hm]

/-- Witness for C10 at a concrete set and names. -/
theorem claim_C10_witness :
    "b" ∈ toggleSource {"b"} "a" ↔ "b" ∈ ({"b"} : Finset String) :=
  (claim_C10_toggle {"b"} "a").2.2 "b" (by decide)

/-! Lemmas about the grouping reduce. -/

/-- Reading the head entry of an association list. -/
theorem lookupGroup_cons (q : String × List RSSItem)
    (t : List (String × List RSSItem)) (k : String) :
    lookupGroup (q :: t) k = if q.1 = k then q.2 else lookupGroup t k := by
  by_cases h : q.1 = k
  · simp [lookupGroup, List.find?_cons_of_pos, h]
  · simp [lookupGroup, List.find?_cons_of_neg, h]

/-- After one insert, the inserted key's bucket gains the feed at its end and
every other key reads unchanged. -/
theorem lookupGroup_insertFeed (f : RSSItem) (k : String) :
    ∀ acc, lookupGroup (insertFeed acc f) k =
      if k = f.feedName then lookupGroup acc k ++ [f]
      else lookupGroup acc k := by
  intro acc
  induction acc with
  | nil =>
    by_cases hk : k = f.feedName
    · simp [insertFeed, lookupGroup_cons, lookupGroup, hk]
    · simp [insertFeed, lookupGroup_cons, lookupGroup, hk, Ne.symm hk]
  | cons p rest ih =>
    by_cases hp : p.1 = f.feedName
    · rw [insertFeed, if_pos (beq_iff_eq.mpr hp)]
      by_cases hk : p.1 = k
      · have hkf : k = f.feedName := hk.symm.trans hp
        simp [lookupGroup_cons, hk, hkf]
      · have hkf : ¬ k = f.feedName := fun h => hk (hp.trans h.symm)
        simp [lookupGroup_cons, hk, hkf]
    · rw [insertFeed, if_neg (by simpa using hp)]
      by_cases hk : p.1 = k
      · have hkf : ¬ k = f.feedName := fun h => hp (hk.trans h)
        simp [lookupGroup_cons, hk, hkf]
      · simp [lookupGroup_cons, hk, ih]

/-- One insert adds exactly the inserted feed to the multiset of grouped
items. -/
theorem joinGroups_insertFeed (f : RSSItem) :
    ∀ acc, List.Perm (joinGroups (insertFeed acc f)) (f :: joinGroups acc) := by
  intro acc
  induction acc with
  | nil => simp [insertFeed, joinGroups]
  | cons p rest ih =>
    by_cases hp : p.1 = f.feedName
    · rw [insertFeed, if_pos (beq_iff_eq.mpr hp)]
      simp only [joinGroups, List.map_cons, List.flatten_cons, List.append_assoc,
        List.singleton_append]
      exact List.perm_middle
    · rw [insertFeed, if_neg (by simpa using hp)]
      simp only [joinGroups, List.map_cons, List.flatten_cons]
      exact (ih.append_left p.2).trans List.perm_middle

/-- Keys after one insert: no key outside the old keys and the inserted feed's
name appears. -/
theorem insertFeed_keys_mem (f : RSSItem) : ∀ acc k,
    k ∈ (insertFeed acc f).map Prod.fst →
    k ∈ acc.map Prod.fst ∨ k = f.feedName := by
  intro acc
  induction acc with
  | nil => intro k hk; simp [insertFeed] at hk; exact Or.inr hk
  | cons p rest ih =>
    intro k hk
    by_cases hp : p.1 = f.feedName
    · rw [insertFeed, if_pos (beq_iff_eq.mpr hp)] at hk
      simp only [List.map_cons, List.mem_cons] at hk ⊢
      tauto
    · rw [insertFeed, if_neg (by simpa using hp)] at hk
      simp only [List.map_cons, List.mem_cons] at hk ⊢
      rcases hk with hk | hk
      · exact Or.inl (Or.inl hk)
      · rcases ih k hk with h | h
        · exact Or.inl (Or.inr h)
        · exact Or.inr h

/-- One insert keeps the keys pairwise distinct. -/
theorem insertFeed_keys_nodup (f : RSSItem) : ∀ acc,
    (acc.map Prod.fst).Nodup → ((insertFeed acc f).map Prod.fst).Nodup := by
  intro acc
  induction acc with
  | nil => intro _; simp [insertFeed]
  | cons p rest ih =>
    intro hnd
    simp only [List.map_cons, List.nodup_cons] at hnd
    by_cases hp : p.1 = f.feedName
    · rw [insertFeed, if_pos (beq_iff_eq.mpr hp)]
      simp only [List.map_cons, List.nodup_cons]
      exact hnd
    · rw [insertFeed, if_neg (by simpa using hp)]
      simp only [List.map_cons, List.nodup_cons]
      refine ⟨fun hmem => ?_, ih hnd.2⟩
      rcases insertFeed_keys_mem f rest p.1 hmem with h | h
      · exact hnd.1 h
      · exact hp h

/-- Folding feeds into an accumulator: each key reads its old bucket followed
by the folded feeds of that name, in input order. -/
theorem foldl_insertFeed_lookup (k : String) : ∀ (feeds : List RSSItem) acc,
    lookupGroup (feeds.foldl insertFeed acc) k =
      lookupGroup acc k ++ feeds.filter (fun f => f.feedName == k) := by
  intro feeds
  induction feeds with
  | nil => intro acc; simp
  | cons x t ih =>
    intro acc
    rw [List.foldl_cons, ih (insertFeed acc x), lookupGroup_insertFeed]
    by_cases hk : k = x.feedName
    · rw [if_pos hk, List.filter_cons_of_pos (by simpa using hk.symm),
        List.append_assoc, List.singleton_append]
    · rw [if_neg hk, List.filter_cons_of_neg (by simpa using fun h => hk h.symm)]

/-- Folding feeds into an accumulator permutes the grouped items onto the old
ones followed by the new feeds. -/
theorem foldl_insertFeed_perm : ∀ (feeds : List RSSItem) acc,
    List.Perm (joinGroups (feeds.foldl insertFeed acc)) (joinGroups acc ++ feeds) := by
  intro feeds
  induction feeds with
  | nil => intro acc; simp
  | cons x t ih =>
    intro acc
    rw [List.foldl_cons]
    exact (ih (insertFeed acc x)).trans
      (((joinGroups_insertFeed x acc).append_right t).trans List.perm_middle.symm)

/-- Folding feeds keeps the group keys pairwise distinct. -/
theorem foldl_insertFeed_keys_nodup : ∀ (feeds : List RSSItem) acc,
    (acc.map Prod.fst).Nodup →
    ((feeds.foldl insertFeed acc).map Prod.fst).Nodup := by
  intro feeds
  induction feeds with
  | nil => intro acc h; simpa using h
  | cons x t ih =>
    intro acc h
    exact ih (insertFeed acc x) (insertFeed_keys_nodup x acc h)

/-- C3: `groupedFeeds` partitions the input by source: the grouped items are a
permutation of the input (every item appears exactly once), the group keys are
pairwise distinct, and the bucket of each key is exactly the list of input
items with that `feedName`, in input order — so two items share a group
exactly when they share their source name, and relative order inside a group
is preserved. -/
theorem claim_C3_grouping (feeds : List RSSItem) :
    List.Perm (joinGroups (groupedFeeds feeds)) feeds ∧
    ((groupedFeeds feeds).map Prod.fst).Nodup ∧
    ∀ k, lookupGroup (groupedFeeds feeds) k =
      feeds.filter (fun f => f.feedName == k) := by
  refine ⟨?_, ?_, fun k => ?_⟩
  · simpa [joinGroups] using foldl_insertFeed_perm feeds []
  · exact foldl_insertFeed_keys_nodup feeds [] (by simp)
  · simpa [lookupGroup] using foldl_insertFeed_lookup k feeds []

/-! Lemmas about the batching loop. -/

/-- Any sufficient fuel computes the same chunking. -/
theorem chunksOfBatchFuel_adequate : ∀ (f1 f2 : Nat) (l : List RSSFeedConfig),
    l.length ≤ f1 → l.length ≤ f2 →
    chunksOfBatchFuel f1 l = chunksOfBatchFuel f2 l := by
  intro f1
  induction f1 with
  | zero =>
    intro f2 l h1 _
    have hl : l = [] := List.eq_nil_of_length_eq_zero (Nat.le_zero.mp h1)
    subst hl
    cases f2 <;> simp [chunksOfBatchFuel]
  | succ f ih =>
    intro f2 l h1 h2
    cases l with
    | nil => cases f2 <;> simp [chunksOfBatchFuel]
    | cons c rest =>
      cases f2 with
      | zero => simp at h2
      | succ f2 =>
        simp only [chunksOfBatchFuel]
        refine congrArg _ (ih f2 _ ?_ ?_) <;>
          · simp only [List.length_drop, List.length_cons] at *
            simp only [BATCH_SIZE]
            omega

/-- Unfolding `specChunks` on a non-empty list. -/
theorem specChunks_cons (l : List RSSFeedConfig) (h : l ≠ []) :
    specChunks l = l.take BATCH_SIZE :: specChunks (l.drop BATCH_SIZE) := by
  obtain ⟨c, rest, rfl⟩ := List.exists_cons_of_ne_nil h
  show chunksOfBatchFuel (rest.length + 1) (c :: rest) = _
  simp only [chunksOfBatchFuel]
  refine congrArg _ (chunksOfBatchFuel_adequate rest.length _ _ ?_ (le_refl _))
  simp only [List.length_drop, List.length_cons, BATCH_SIZE]
  omega

/-- The chunking is empty exactly on the empty list. -/
theorem specChunks_eq_nil_iff (l : List RSSFeedConfig) :
    specChunks l = [] ↔ l = [] := by
  constructor
  · intro h
    by_contra hne
    rw [specChunks_cons l hne] at h
    simp at h
  · intro h; subst h; rfl

/-- The chunks concatenate back to the original list, in order. -/
theorem specChunks_flatten : ∀ (n : Nat) (l : List RSSFeedConfig),
    l.length ≤ n → (specChunks l).flatten = l := by
  intro n
  induction n with
  | zero =>
    intro l h
    have hl : l = [] := List.eq_nil_of_length_eq_zero (Nat.le_zero.mp h)
    subst hl; rfl
  | succ n ih =>
    intro l h
    by_cases hl : l = []
    · subst hl; rfl
    · rw [specChunks_cons l hl, List.flatten_cons,
        ih (l.drop BATCH_SIZE) ?_, List.take_append_drop]
      have hpos : 0 < l.length := List.length_pos.mpr hl
      simp only [List.length_drop, BATCH_SIZE]
      omega

/-- Every chunk is non-empty and no longer than `BATCH_SIZE`. -/
theorem specChunks_chunk_len : ∀ (n : Nat) (l : List RSSFeedConfig),
    l.length ≤ n → ∀ b ∈ specChunks l, 0 < b.length ∧ b.length ≤ BATCH_SIZE := by
  intro n
  induction n with
  | zero =>
    intro l h b hb
    have hl : l = [] := List.eq_nil_of_length_eq_zero (Nat.le_zero.mp h)
    subst hl; simp [specChunks, chunksOfBatchFuel] at hb
  | succ n ih =>
    intro l h b hb
    by_cases hl : l = []
    · subst hl; simp [specChunks, chunksOfBatchFuel] at hb
    · rw [specChunks_cons l hl, List.mem_cons] at hb
      have hpos : 0 < l.length := List.length_pos.mpr hl
      rcases hb with rfl | hb
      · constructor <;> · simp only [List.length_take, BATCH_SIZE] at *; omega
      · refine ih (l.drop BATCH_SIZE) ?_ b hb
        simp only [List.length_drop, BATCH_SIZE]
        omega

/-- Every chunk except possibly the last has length exactly `BATCH_SIZE`. -/
theorem specChunks_dropLast_len : ∀ (n : Nat) (l : List RSSFeedConfig),
    l.length ≤ n → ∀ b ∈ (specChunks l).dropLast, b.length = BATCH_SIZE := by
  intro n
  induction n with
  | zero =>
    intro l h b hb
    have hl : l = [] := List.eq_nil_of_length_eq_zero (Nat.le_zero.mp h)
    subst hl; simp [specChunks, chunksOfBatchFuel] at hb
  | succ n ih =>
    intro l h b hb
    by_cases hl : l = []
    · subst hl; simp [specChunks, chunksOfBatchFuel] at hb
    · rw [specChunks_cons l hl] at hb
      by_cases hd : l.drop BATCH_SIZE = []
      · rw [hd] at hb
        simp [specChunks, chunksOfBatchFuel] at hb
      · have hne : specChunks (l.drop BATCH_SIZE) ≠ [] := by
          rw [Ne, specChunks_eq_nil_iff]; exact hd
        rw [List.dropLast_cons_of_ne_nil hne, List.mem_cons] at hb
        rcases hb with rfl | hb
        · have hlen : BATCH_SIZE < l.length := by
            by_contra hge
            push_neg at hge
            exact hd (List.drop_eq_nil_of_le hge)
          simp only [List.length_take]
          omega
        · refine ih (l.drop BATCH_SIZE) ?_ b hb
          have hpos : 0 < l.length := List.length_pos.mpr hl
          simp only [List.length_drop, BATCH_SIZE] at *
          omega

/-- The source loop equals the spec-side chunks-with-delays rendering, from
any loop index. -/
theorem loadLoop_eq_withDelays : ∀ (n : Nat) (cfgs : List RSSFeedConfig) (i : Nat),
    cfgs.length - i ≤ n →
    loadLoop cfgs i = withDelays (specChunks (cfgs.drop i)) := by
  intro n
  induction n with
  | zero =>
    intro cfgs i h
    have hle : cfgs.length ≤ i := by omega
    rw [loadLoop, dif_neg (by omega), List.drop_eq_nil_of_le hle]
    rfl
  | succ n ih =>
    intro cfgs i h
    by_cases hi : i < cfgs.length
    · have hlen : (cfgs.drop i).length = cfgs.length - i := List.length_drop i cfgs
      have hdrop : cfgs.drop i ≠ [] := by
        intro hnil
        rw [hnil] at hlen
        simp at hlen
        omega
      have hdd : (cfgs.drop i).drop BATCH_SIZE = cfgs.drop (i + BATCH_SIZE) := by
        rw [List.drop_drop, Nat.add_comm]
      have hrest := ih cfgs (i + BATCH_SIZE) (by simp only [BATCH_SIZE] at *; omega)
      rw [loadLoop, dif_pos hi, specChunks_cons _ hdrop]
      by_cases hcond : i + BATCH_SIZE < cfgs.length
      · have hd2 : cfgs.drop (i + BATCH_SIZE) ≠ [] := by
          intro hnil
          have := List.length_drop (i + BATCH_SIZE) cfgs
          rw [hnil] at this
          simp at this
          omega
        have hne : specChunks ((cfgs.drop i).drop BATCH_SIZE) ≠ [] := by
          rw [hdd, Ne, specChunks_eq_nil_iff]; exact hd2
        obtain ⟨e, es, hees⟩ := List.exists_cons_of_ne_nil hne
        rw [if_pos hcond, hees, withDelays, hrest, ← hees, hdd]
        simp
      · have hd2 : cfgs.drop (i + BATCH_SIZE) = [] :=
          List.drop_eq_nil_of_le (by omega)
        have hnil2 : specChunks ((cfgs.drop i).drop BATCH_SIZE) = [] := by
          rw [hdd, hd2]; rfl
        rw [if_neg hcond, hnil2, hrest, hd2]
        rfl
    · rw [loadLoop, dif_neg hi, List.drop_eq_nil_of_le (by omega)]
      rfl

/-- C5: the loader splits a category's feed configs into consecutive chunks of
`BATCH_SIZE = 3` (only the final chunk may be smaller), the chunks concatenate
back to the original config list in order, and a `BATCH_DELAY` pause separates
consecutive chunks with none after the last (`withDelays` places the delays
exactly between chunks). -/
theorem claim_C5_batching :
    BATCH_SIZE = 3 ∧ BATCH_DELAY = 100 ∧
    ∀ cfgs : List RSSFeedConfig,
      loadLoop cfgs 0 = withDelays (specChunks cfgs) ∧
      (specChunks cfgs).flatten = cfgs ∧
      (∀ b ∈ specChunks cfgs, 0 < b.length ∧ b.length ≤ BATCH_SIZE) ∧
      (∀ b ∈ (specChunks cfgs).dropLast, b.length = BATCH_SIZE) := by
  refine ⟨rfl, rfl, fun cfgs => ⟨?_, ?_, ?_, ?_⟩⟩
  · simpa using loadLoop_eq_withDelays cfgs.length cfgs 0 (by omega)
  · exact specChunks_flatten cfgs.length cfgs (le_refl _)
  · exact specChunks_chunk_len cfgs.length cfgs (le_refl _)
  · exact specChunks_dropLast_len cfgs.length cfgs (le_refl _)

/-- Witness for C5 on four configs (chunks of 3 and 1, one delay between). -/
theorem claim_C5_witness :
    loadLoop feedsFour 0 = withDelays (specChunks feedsFour) ∧
    (0 < (feedsFour.take 3).length ∧ (feedsFour.take 3).length ≤ BATCH_SIZE) ∧
    (feedsFour.take 3).length = BATCH_SIZE := by
  refine ⟨(claim_C5_batching.2.2 feedsFour).1, ?_, ?_⟩
  · exact (claim_C5_batching.2.2 feedsFour).2.2.1 (feedsFour.take 3) (by decide)
  · exact (claim_C5_batching.2.2 feedsFour).2.2.2 (feedsFour.take 3) (by decide)

/-! Lemmas about utils.stripHtml. -/

/-- The remainder after the first '>' is a sublist of the input. -/
theorem afterGt_sublist : ∀ {l t : List Char}, afterGt l = some t → t.Sublist l := by
  intro l t h
  unfold afterGt at h
  cases hdrop : l.dropWhile (fun c => c != '>') with
  | nil => rw [hdrop] at h; exact absurd h (by simp)
  | cons x rest =>
    rw [hdrop] at h
    have ht : rest = t := by simpa using h
    subst ht
    have hsuf := List.dropWhile_suffix (l := l) (fun c => c != '>')
    rw [hdrop] at hsuf
    exact (List.sublist_cons_self x rest).trans hsuf.sublist

/-- Jumping past the first '>' strictly shrinks the input. -/
theorem afterGt_length : ∀ {l t : List Char}, afterGt l = some t →
    t.length < l.length := by
  intro l t h
  unfold afterGt at h
  cases hdrop : l.dropWhile (fun c => c != '>') with
  | nil => rw [hdrop] at h; exact absurd h (by simp)
  | cons x rest =>
    rw [hdrop] at h
    have ht : rest = t := by simpa using h
    subst ht
    have hsuf := List.dropWhile_suffix (l := l) (fun c => c != '>')
    rw [hdrop] at hsuf
    have := hsuf.sublist.length_le
    simp only [List.length_cons] at this
    omega

/-- A failed jump means the input holds no '>'. -/
theorem afterGt_none : ∀ {l : List Char}, afterGt l = none → '>' ∉ l := by
  intro l h
  unfold afterGt at h
  cases hdrop : l.dropWhile (fun c => c != '>') with
  | cons x rest => rw [hdrop] at h; simp at h
  | nil =>
    intro hmem
    have hall := List.dropWhile_eq_nil_iff.mp hdrop
    have := hall '>' hmem
    simp at this

/-- The stripped text only keeps characters of the input, in order. -/
theorem stripTagsFuel_sublist : ∀ (fuel : Nat) (l : List Char),
    (stripTagsFuel fuel l).Sublist l := by
  intro fuel
  induction fuel with
  | zero => intro l; exact List.Sublist.refl l
  | succ f ih =>
    intro l
    cases l with
    | nil => simp [stripTagsFuel]
    | cons c rest =>
      rw [stripTagsFuel]
      by_cases hc : c = '<'
      · rw [if_pos hc]
        cases hag : afterGt rest with
        | some after =>
          exact ((ih after).trans (afterGt_sublist hag)).trans
            (List.sublist_cons_self c rest)
        | none => exact (ih rest).cons₂ c
      · rw [if_neg hc]
        exact (ih rest).cons₂ c

/-- With enough fuel, the stripped text never has a '<' followed by a '>'. -/
theorem stripTagsFuel_noTag : ∀ (fuel : Nat) (l : List Char), l.length ≤ fuel →
    ¬ List.Sublist ['<', '>'] (stripTagsFuel fuel l) := by
  intro fuel
  induction fuel with
  | zero =>
    intro l h
    have hl : l = [] := List.eq_nil_of_length_eq_zero (Nat.le_zero.mp h)
    subst hl
    simp [stripTagsFuel]
  | succ f ih =>
    intro l h
    cases l with
    | nil => simp [stripTagsFuel]
    | cons c rest =>
      simp only [List.length_cons] at h
      rw [stripTagsFuel]
      by_cases hc : c = '<'
      · rw [if_pos hc]
        cases hag : afterGt rest with
        | some after =>
          exact ih after (by have := afterGt_length hag; omega)
        | none =>
          intro hsub
          cases hsub with
          | cons _ h2 => exact ih rest (by omega) h2
          | cons₂ _ h2 =>
            have hgt : '>' ∉ rest := afterGt_none hag
            have hmem : '>' ∈ stripTagsFuel f rest := List.singleton_sublist.mp h2
            exact hgt ((stripTagsFuel_sublist f rest).subset hmem)
      · rw [if_neg hc]
        intro hsub
        cases hsub with
        | cons _ h2 => exact ih rest (by omega) h2
        | cons₂ h2 => exact hc rfl

/-- Trimming only keeps characters of the input, in order. -/
theorem trimChars_sublist (l : List Char) : (trimChars l).Sublist l := by
  unfold trimChars
  have h1 : (l.dropWhile isJsWs).Sublist l :=
    (List.dropWhile_suffix (l := l) isJsWs).sublist
  have h2 : ((l.dropWhile isJsWs).reverse.dropWhile isJsWs).Sublist
      (l.dropWhile isJsWs).reverse :=
    (List.dropWhile_suffix (l := (l.dropWhile isJsWs).reverse) isJsWs).sublist
  have h3 := h2.reverse
  rw [List.reverse_reverse] at h3
  exact h3.trans h1

/-- C7: basic text stripping holds: the output of `stripHtml` never contains a
'<' that is followed, at any later position, by a '>': the two-character
pattern is not a sublist of the output.  A null and an empty input both give
the empty string. -/
theorem claim_C7_strip_html :
    (∀ s : String, ¬ List.Sublist ['<', '>'] (stripHtmlStr s).data) ∧
    stripHtmlJ Json.jnull = some "" ∧ stripHtmlJ (Json.jstr "") = some "" := by
  refine ⟨fun s => ?_, rfl, rfl⟩
  by_cases hs : s = ""
  · subst hs; simp [stripHtmlStr]
  · rw [stripHtmlStr, if_neg hs]
    intro hsub
    exact stripTagsFuel_noTag s.data.length s.data (le_refl _)
      (hsub.trans (trimChars_sublist _))

/-! Lemmas about category id generation. -/

/-- Collected names are never dropped by later folding. -/
theorem foldl_addCategoryName_mono : ∀ (feeds : List RSSFeedConfig)
    (acc : List String) (c : String),
    c ∈ acc → c ∈ feeds.foldl addCategoryName acc := by
  intro feeds
  induction feeds with
  | nil => intro acc c hc; simpa using hc
  | cons fc t ih =>
    intro acc c hc
    refine ih _ c ?_
    unfold addCategoryName
    by_cases h : fc.category ∈ acc
    · rwa [if_pos h]
    · rw [if_neg h]; exact List.mem_append_left _ hc

/-- Every feed config's raw category name is collected. -/
theorem mem_foldl_addCategoryName : ∀ (feeds : List RSSFeedConfig)
    (acc : List String) (fc : RSSFeedConfig),
    fc ∈ feeds → fc.category ∈ feeds.foldl addCategoryName acc := by
  intro feeds
  induction feeds with
  | nil => intro acc fc h; simp at h
  | cons g t ih =>
    intro acc fc h
    rw [List.mem_cons] at h
    rcases h with rfl | h
    · refine foldl_addCategoryName_mono t _ _ ?_
      unfold addCategoryName
      by_cases hg : fc.category ∈ acc
      · rwa [if_pos hg]
      · rw [if_neg hg]; exact List.mem_append_right _ (by simp)
    · exact ih _ fc h

/-- The collected raw names are pairwise distinct. -/
theorem foldl_addCategoryName_nodup : ∀ (feeds : List RSSFeedConfig)
    (acc : List String), acc.Nodup → (feeds.foldl addCategoryName acc).Nodup := by
  intro feeds
  induction feeds with
  | nil => intro acc h; simpa using h
  | cons g t ih =>
    intro acc h
    refine ih _ ?_
    unfold addCategoryName
    by_cases hg : g.category ∈ acc
    · rwa [if_pos hg]
    · rw [if_neg hg]
      simp [List.nodup_append, h, hg]

/-- C8 as stated is false: two raw category names differing only in letter
case produce two category entries with the same generated id, and the loader's
filter by that id then selects the feed configs of both entries. -/
theorem claim_C8_counterexample :
    categoryNames feedsCaseClash = ["Tech", "tech"] ∧
    ¬ ((categoryNames feedsCaseClash).map normalizeCategoryId).Nodup ∧
    feedsCaseClash.filter
      (fun f => normalizeCategoryId f.category == "tech") = feedsCaseClash := by
  refine ⟨by decide, by decide, by decide⟩

/-- C8 amended: whenever the normalised ids are injective on the raw names
actually occurring in the configuration (no two raw names differing only in
case or whitespace), the generated category ids are pairwise distinct and
filtering the configs by a category's normalised id selects exactly the
configs whose raw name is that category's name. -/
theorem claim_C8_amended (feeds : List RSSFeedConfig)
    (hinj : ∀ n₁ ∈ categoryNames feeds, ∀ n₂ ∈ categoryNames feeds,
      normalizeCategoryId n₁ = normalizeCategoryId n₂ → n₁ = n₂) :
    ((categoryNames feeds).map normalizeCategoryId).Nodup ∧
    ∀ name ∈ categoryNames feeds,
      feeds.filter
        (fun f => normalizeCategoryId f.category == normalizeCategoryId name) =
        feeds.filter (fun f => f.category == name) := by
  constructor
  · exact (foldl_addCategoryName_nodup feeds [] List.nodup_nil).map_on hinj
  · intro name hname
    refine List.filter_congr ?_
    intro f hf
    have hfmem : f.category ∈ categoryNames feeds :=
      mem_foldl_addCategoryName feeds [] f hf
    by_cases heq : f.category = name
    · simp [heq]
    · have hne : normalizeCategoryId f.category ≠ normalizeCategoryId name :=
        fun h => heq (hinj _ hfmem _ hname h)
      simp [heq, hne]

/-- Witness for the amended C8 at a concrete two-category configuration. -/
theorem claim_C8_witness :
    ((categoryNames feedsTwoCats).map normalizeCategoryId).Nodup ∧
    feedsTwoCats.filter
      (fun f => normalizeCategoryId f.category == normalizeCategoryId "Tech") =
      feedsTwoCats.filter (fun f => f.category == "Tech") :=
  ⟨(claim_C8_amended feedsTwoCats (by decide)).1,
   (claim_C8_amended feedsTwoCats (by decide)).2 "Tech" (by decide)⟩

/-! Lemmas about fetchRSSFeed normalisation. -/

/-- A string-typed value is a string constructor. -/
theorem isStrJ_spec : ∀ {j : Json}, isStrJ j = true → ∃ s, j = Json.jstr s := by
  intro j h
  cases j with
  | jstr s => exact ⟨s, rfl⟩
  | jnull => simp [isStrJ] at h
  | jnum n => simp [isStrJ] at h
  | jbool b => simp [isStrJ] at h
  | jarr xs => simp [isStrJ] at h
  | jobj fs => simp [isStrJ] at h

/-- A truthy string is non-empty. -/
theorem truthy_str_ne {s : String} (h : truthy (Json.jstr s) = true) : s ≠ "" := by
  simpa [truthy] using h

/-- `a || b` is truthy when `b` is. -/
theorem jsOr_truthy (a b : Json) (hb : truthy b = true) :
    truthy (jsOr a b) = true := by
  unfold jsOr
  by_cases ha : truthy a = true
  · rwa [if_pos ha]
  · rwa [if_neg ha]

/-- The title fallback chain ends in a truthy default, so it is truthy. -/
theorem rawTitle_truthy (item : Json) : truthy (rawTitle item) = true :=
  jsOr_truthy _ _ (jsOr_truthy _ _ rfl)

/-- The link fallback chain ends in a truthy default, so it is truthy. -/
theorem rawLink_truthy (item : Json) : truthy (rawLink item) = true :=
  jsOr_truthy _ _ (jsOr_truthy _ _ rfl)

/-- When the fallback condition holds on a truthy value, the
`typeof/_text/_cdata` chain produces a non-empty string (given a non-empty
default). -/
theorem strFallback_ok_str (j : Json) (dflt : String)
    (htr : truthy j = true) (hok : strFallbackOk j = true) (hd : dflt ≠ "") :
    ∃ s, strFallback j dflt = Json.jstr s ∧ s ≠ "" := by
  unfold strFallback
  by_cases hs : isStrJ j = true
  · obtain ⟨s, rfl⟩ := isStrJ_spec hs
    exact ⟨s, by rw [if_pos hs], truthy_str_ne htr⟩
  · rw [if_neg hs]
    unfold strFallbackOk at hok
    rw [Bool.or_eq_true] at hok
    rcases hok with hok | hok
    · exact absurd hok hs
    · by_cases ht : truthy (getF j "_text") = true
      · rw [if_pos ht] at hok
        obtain ⟨s, hse⟩ := isStrJ_spec hok
        refine ⟨s, ?_, truthy_str_ne (hse ▸ ht)⟩
        unfold jsOr
        rw [if_pos ht, hse]
      · rw [if_neg ht] at hok
        have hjsor : jsOr (getF j "_text") (jsOr (getF j "_cdata") (Json.jstr dflt)) =
            jsOr (getF j "_cdata") (Json.jstr dflt) := by
          unfold jsOr
          rw [if_neg ht]
        rw [hjsor]
        by_cases hc : truthy (getF j "_cdata") = true
        · rw [if_pos hc] at hok
          obtain ⟨s, hse⟩ := isStrJ_spec hok
          refine ⟨s, ?_, truthy_str_ne (hse ▸ hc)⟩
          unfold jsOr
          rw [if_pos hc, hse]
        · refine ⟨dflt, ?_, hd⟩
          unfold jsOr
          rw [if_neg hc]

/-- C4 amended: every item of a non-null `fetchRSSFeed` result carries the
supplied category, the config-derived `feedName`, the fallback `pubDate`, and
a string description by construction; its title (resp. link) is a non-empty
string whenever the raw title (resp. link) value satisfies the string-shaped
fallback condition — a truthy non-string `_text`/`_cdata` passes through
unchanged, so titles are not strings in general.  A failed fetch, a response
matching no recognised shape, and an empty item list all yield null rather
than an exception (the model is a total function into `Option`). -/
theorem claim_C4_amended :
    (∀ feedTitle fc category now item ni,
      normalizeItem feedTitle fc category now item = some ni →
      ni.category = category ∧
      ni.feedName = jsOr fc.title fc.name ∧
      ni.pubDate = rawPub now item ∧
      (strFallbackOk (rawTitle item) = true →
        ∃ s, ni.title = Json.jstr s ∧ s ≠ "") ∧
      (strFallbackOk (rawLink item) = true →
        ∃ s, ni.link = Json.jstr s ∧ s ≠ "")) ∧
    (∀ fc category now, fetchRSSFeed none fc category now = none) ∧
    (∀ data fc category now,
      (truthy (extractItems data).1 && jsLenPos (extractItems data).1) = false →
      normalizeResponse data fc category now = none) := by
  refine ⟨?_, fun fc category now => rfl, ?_⟩
  · intro feedTitle fc category now item ni h
    unfold normalizeItem at h
    by_cases hnull : isNullJ item = true
    · rw [if_pos hnull] at h; cases h
    · rw [if_neg hnull] at h
      cases hd : stripHtmlJ (strFallback (rawDesc item) "无描述") with
      | none => rw [hd] at h; cases h
      | some d =>
        rw [hd] at h
        injection h with h
        subst h
        refine ⟨rfl, rfl, rfl, ?_, ?_⟩
        · intro hok
          exact strFallback_ok_str _ _ (rawTitle_truthy item) hok (by decide)
        · intro hok
          exact strFallback_ok_str _ _ (rawLink_truthy item) hok (by decide)
  · intro data fc category now hfalse
    unfold normalizeResponse
    by_cases hnull : isNullJ data = true
    · rw [if_pos hnull]
    · rw [if_neg hnull]
      show (if truthy (extractItems data).1 && jsLenPos (extractItems data).1 then
              mapItems (normalizeItem (extractItems data).2 fc category now)
                (extractItems data).1
            else none) = none
      rw [hfalse]
      rfl

/-- C4 as stated is false: a rss2json-shaped response whose item has
`title._text = 42` is normalised to a non-null result whose item title is the
number 42, not a string. -/
theorem claim_C4_counterexample :
    (normalizeResponse dataCx fcW catTech 0).map
      (fun its => its.all (fun it => isStrJ it.title)) = some false := by
  rfl

/-- Witness for the amended C4: a well-shaped item normalises to a record
whose title is a concrete non-empty string. -/
theorem claim_C4_witness :
    normalizeItem (Json.jstr "") fcW catTech 0 itemW = some niW ∧
    strFallbackOk (rawTitle itemW) = true ∧
    (∃ s, niW.title = Json.jstr s ∧ s ≠ "") := by
  refine ⟨rfl, rfl, ?_⟩
  exact (claim_C4_amended.1 (Json.jstr "") fcW catTech 0 itemW niW rfl).2.2.2.1 rfl

/-! Lemmas about handleRefresh. -/

/-- A settled fetch outcome never writes another category's bucket. -/
theorem applyFetchOutcome_other (categoryId k : String) (hk : k ≠ categoryId)
    (s : AppState) (o : FetchOutcome) :
    (applyFetchOutcome categoryId s o).feedsByCategory k = s.feedsByCategory k := by
  unfold applyFetchOutcome
  cases ho : o.result with
  | none => rfl
  | some items =>
    dsimp only
    by_cases he : items.isEmpty = true
    · rw [if_pos he]
    · rw [if_neg he]
      show addFeedsToCategory s.feedsByCategory categoryId items k = _
      unfold addFeedsToCategory
      rw [if_neg hk]

/-- A settled fetch outcome leaves selection, category list and sort flag
alone. -/
theorem applyFetchOutcome_frame (categoryId : String) (s : AppState)
    (o : FetchOutcome) :
    (applyFetchOutcome categoryId s o).selectedCategory = s.selectedCategory ∧
    (applyFetchOutcome categoryId s o).categories = s.categories ∧
    (applyFetchOutcome categoryId s o).isSorted = s.isSorted := by
  unfold applyFetchOutcome
  cases ho : o.result with
  | none => exact ⟨rfl, rfl, rfl⟩
  | some items =>
    dsimp only
    by_cases he : items.isEmpty = true
    · rw [if_pos he]; exact ⟨rfl, rfl, rfl⟩
    · rw [if_neg he]; exact ⟨rfl, rfl, rfl⟩

/-- Folding settled outcomes into the state never writes another category's
bucket and leaves selection, category list and sort flag alone. -/
theorem foldl_applyFetchOutcome (categoryId : String) :
    ∀ (outcomes : List FetchOutcome) (s : AppState),
    (∀ k, k ≠ categoryId →
      (outcomes.foldl (applyFetchOutcome categoryId) s).feedsByCategory k =
        s.feedsByCategory k) ∧
    (outcomes.foldl (applyFetchOutcome categoryId) s).selectedCategory =
      s.selectedCategory ∧
    (outcomes.foldl (applyFetchOutcome categoryId) s).categories = s.categories ∧
    (outcomes.foldl (applyFetchOutcome categoryId) s).isSorted = s.isSorted := by
  intro outcomes
  induction outcomes with
  | nil => intro s; exact ⟨fun _ _ => rfl, rfl, rfl, rfl⟩
  | cons o t ih =>
    intro s
    refine ⟨fun k hk => ?_, ?_, ?_, ?_⟩
    · rw [List.foldl_cons, (ih _).1 k hk, applyFetchOutcome_other categoryId k hk]
    · rw [List.foldl_cons, (ih _).2.1, (applyFetchOutcome_frame categoryId s o).1]
    · rw [List.foldl_cons, (ih _).2.2.1, (applyFetchOutcome_frame categoryId s o).2.1]
    · rw [List.foldl_cons, (ih _).2.2.2, (applyFetchOutcome_frame categoryId s o).2.2]

/-- `loadFeedsForCategory` never writes another category's bucket and leaves
selection, category list and sort flag alone. -/
theorem loadFeedsForCategory_touch (categoryId : String)
    (outcomes : List FetchOutcome) (s : AppState) :
    (∀ k, k ≠ categoryId →
      (loadFeedsForCategory categoryId outcomes s).feedsByCategory k =
        s.feedsByCategory k) ∧
    (loadFeedsForCategory categoryId outcomes s).selectedCategory =
      s.selectedCategory ∧
    (loadFeedsForCategory categoryId outcomes s).categories = s.categories ∧
    (loadFeedsForCategory categoryId outcomes s).isSorted = s.isSorted := by
  simp only [loadFeedsForCategory]
  by_cases hcu : categoryId = "custom"
  · rw [if_pos hcu]; exact ⟨fun _ _ => rfl, rfl, rfl, rfl⟩
  · rw [if_neg hcu]
    by_cases hcfg : (!s.hasRssConfig) = true
    · rw [if_pos hcfg]; exact ⟨fun _ _ => rfl, rfl, rfl, rfl⟩
    · rw [if_neg hcfg]
      by_cases hany :
          ((loadReset categoryId s).categories.any
            (fun cc => cc.id == categoryId)) = true
      · rw [if_pos hany]
        refine ⟨fun k hk => ?_,
          (foldl_applyFetchOutcome categoryId outcomes _).2.1,
          (foldl_applyFetchOutcome categoryId outcomes _).2.2.1,
          (foldl_applyFetchOutcome categoryId outcomes _).2.2.2⟩
        rw [(foldl_applyFetchOutcome categoryId outcomes _).1 k hk]
        show clearCategoryFeeds s.feedsByCategory categoryId k = _
        unfold clearCategoryFeeds
        rw [if_neg hk]
      · rw [if_neg hany]
        refine ⟨fun k hk => ?_, rfl, rfl, rfl⟩
        show clearCategoryFeeds s.feedsByCategory categoryId k = _
        unfold clearCategoryFeeds
        rw [if_neg hk]

/-- C9 amended: refreshing clears the entire cache: after `handleRefresh`
completes, every category other than the selected one caches the empty list;
besides `feedsByCategory`, the loading state and the error, the refresh also
resets the sort flag to false (and reloading may expand sources), while the
selected category and the category list are untouched. -/
theorem claim_C9_amended (outcomes : List FetchOutcome) (s : AppState)
    (c : String) (hc : s.selectedCategory ≠ some c) :
    (handleRefresh outcomes s).feedsByCategory c = [] ∧
    (handleRefresh outcomes s).selectedCategory = s.selectedCategory ∧
    (handleRefresh outcomes s).categories = s.categories ∧
    (handleRefresh outcomes s).isSorted = false := by
  simp only [handleRefresh]
  have hsel1 : (refreshReset s).selectedCategory = s.selectedCategory := rfl
  rw [hsel1]
  cases hsel : s.selectedCategory with
  | none =>
    dsimp only
    exact ⟨rfl, hsel, rfl, rfl⟩
  | some cid =>
    dsimp only
    have hcid : cid ≠ c := fun h => hc (hsel.trans (congrArg some h))
    by_cases hez : cid = ""
    · rw [if_pos hez]
      exact ⟨rfl, hsel, rfl, rfl⟩
    · rw [if_neg hez]
      have htouch := loadFeedsForCategory_touch cid outcomes (refreshReset s)
      exact ⟨(htouch.1 c (Ne.symm hcid)).trans rfl, htouch.2.1.trans hsel,
        htouch.2.2.1, htouch.2.2.2⟩

/-- C9 as stated is false in its frame clause: `handleRefresh` also touches
the sort flag (`setIsSorted(false)`), not only loading/error state.  Here a
state whose sort flag is on comes out with the flag off. -/
theorem claim_C9_counterexample :
    sortedState.isSorted = true ∧ (handleRefresh [] sortedState).isSorted = false :=
  ⟨rfl, rfl⟩

/-- Witness for the amended C9: refreshing the concrete state empties the
"tech" bucket (which cached an item) and resets the sort flag. -/
theorem claim_C9_witness :
    (handleRefresh [] sortedState).feedsByCategory "tech" = [] ∧
    (handleRefresh [] sortedState).isSorted = false :=
  ⟨(claim_C9_amended [] sortedState "tech" (by decide)).1,
   (claim_C9_amended [] sortedState "tech" (by decide)).2.2.2⟩

end RSSReader
